import Mathlib

/-
Verification of the `ConfusionMatrix` accumulator from
`avalanche/evaluation/metrics/confusion_matrix.py`.

The Python class keeps a running confusion matrix in `self._cm_tensor`
(a square `torch.long` tensor or `None`), configured by an optional
`num_classes` and an optional `normalize` mode.  Inputs to `update` are
tensors that are either 1-D (direct integer labels) or 2-D (per-class
score/logit rows); higher-dimensional inputs are rejected.  We embed
tensors as an inductive type, rational numbers stand for the float
scores, and the count table is a list of rows of naturals.  Each
operation is embedded as a function threading the explicit state; errors
raised by the Python code (ValueError / torch runtime errors) become
explicit error values.
-/

namespace CM

abbrev Mat := List (List Nat)

/-- A torch tensor as consumed by `ConfusionMatrix.update`: 1-D integer
labels, a 2-D rectangular block of scores (with its column count `w`,
i.e. `shape[1]`), or a tensor of more than two dimensions of which only
`len(t)` (= `shape[0]`) and the number of dimensions matter before the
code rejects it. -/
inductive Tensor where
  | oneD (xs : List Int)
  | twoD (w : Nat) (rows : List (List ℚ))
  | higherD (len : Nat) (nd : Nat)
  deriving DecidableEq

/-- `len(t)` in Python: the first dimension. -/
def Tensor.tlen : Tensor → Nat
  | .oneD xs => xs.length
  | .twoD _ rows => rows.length
  | .higherD n _ => n

/-- `len(t.shape)` in Python: the number of dimensions. -/
def Tensor.ndims : Tensor → Nat
  | .oneD _ => 1
  | .twoD _ _ => 2
  | .higherD _ d => d

/-- Rectangularity of a torch tensor: every row of a 2-D tensor has
exactly `shape[1]` entries. -/
def Tensor.WF : Tensor → Prop
  | .twoD w rows => ∀ r ∈ rows, r.length = w
  | _ => True

/-- The errors the Python methods raise: the `ValueError`s of
`update`/`_normalize_cm` plus the two torch runtime errors that can
escape `update` (reduction over an empty tensor, index out of range). -/
inductive CMError where
  | sizeMismatch
  | trueTooManyDims
  | predTooManyDims
  | negativeLabel
  | predLabelTooLarge
  | targetLabelTooLarge
  | noPositiveLabels
  | emptyReduction
  | indexError
  | invalidNormalization
  deriving DecidableEq

/-- The state of a `ConfusionMatrix` instance: `_cm_tensor`,
`_num_classes` and `normalize`. -/
structure CMState where
  cm : Option Mat
  numClasses : Option Nat
  normalize : Option String
  deriving DecidableEq

/-- Python list slicing `xs[:k]` for a possibly negative `k`. -/
def pyTake {α : Type} (k : Int) (xs : List α) : List α :=
  if 0 ≤ k then xs.take k.toNat else xs.take (xs.length - (-k).toNat)

/-- Length of `pyTake k xs` as a function of `xs.length`. -/
def pyTakeLen (k : Int) (n : Nat) : Nat :=
  if 0 ≤ k then min k.toNat n else n - (-k).toNat

/-- Line 107: `max_label = -1 if self._num_classes is None else
self._num_classes - 1`. -/
def ml0 (s : CMState) : Int :=
  match s.numClasses with
  | none => -1
  | some k => (k : Int) - 1

/-- Lines 111-115: if the input is 2-D and `num_classes` is fixed, keep
only the columns `[:, :max_label]`. -/
def truncate (nc : Option Nat) (ml : Int) : Tensor → Tensor
  | .twoD w rows =>
    match nc with
    | some _ => .twoD (pyTakeLen ml w) (rows.map (pyTake ml))
    | none => .twoD w rows
  | t => t

/-- Index of the first maximal entry seen so far (`b` at index `bi`),
scanning the rest of the row from index `i`. -/
def argmaxAux (b : ℚ) (bi i : Nat) : List ℚ → Nat
  | [] => bi
  | x :: xs => if b < x then argmaxAux x i (i + 1) xs else argmaxAux b bi (i + 1) xs

/-- `torch.max(row)` index for one row; `none` on an empty row (torch
raises on an empty reduction). -/
def argmaxRow : List ℚ → Option Nat
  | [] => none
  | x :: xs => some (argmaxAux x 0 1 xs)

/-- `torch.max(t, 1)[1]`: per-row arg-max; fails if any row is empty. -/
def argmaxAll : List (List ℚ) → Option (List Nat)
  | [] => some []
  | r :: rs =>
    match argmaxRow r, argmaxAll rs with
    | some i, some is => some (i :: is)
    | _, _ => none

/-- Lines 118-149 for one input tensor: 2-D inputs are converted to
labels by per-row arg-max (updating `max_label` from `shape[1] - 1` when
`num_classes` is not fixed); 1-D inputs are checked non-negative and,
with a fixed `num_classes`, strictly below it.  `isPred` selects which
of the two "label larger than num_classes" errors is raised.  Returns
the updated `max_label` and the derived class indices. -/
def procSide (nc : Option Nat) (ml : Int) (isPred : Bool) :
    Tensor → Except CMError (Int × List Nat)
  | .twoD w rows =>
    match argmaxAll rows with
    | none => .error .emptyReduction
    | some idxs =>
      match nc with
      | none => .ok (max ml ((w : Int) - 1), idxs)
      | some _ => .ok (ml, idxs)
  | .oneD [] => .error .emptyReduction
  | .oneD (x :: xs) =>
    if xs.foldl min x < 0 then .error .negativeLabel
    else
      match nc with
      | none => .ok (max ml (xs.foldl max x), (x :: xs).map Int.toNat)
      | some k =>
        if (k : Int) ≤ xs.foldl max x then
          .error (if isPred then .predLabelTooLarge else .targetLabelTooLarge)
        else .ok (ml, (x :: xs).map Int.toNat)
  | .higherD _ _ => .error (if isPred then .predTooManyDims else .trueTooManyDims)

/-- `torch.zeros((n, n), dtype=torch.long)`. -/
def zerosM (n : Nat) : Mat := List.replicate n (List.replicate n 0)

/-- `shape[1]` of the stored matrix (its first row's length). -/
def matWidth (m : Mat) : Nat := (m.headD []).length

/-- `pad(cm, (0, d, 0, d))`: append `d` zero columns on the right and
`d` zero rows at the bottom. -/
def padSquare (m : Mat) (d : Nat) : Mat :=
  m.map (fun r => r ++ List.replicate d 0) ++
    List.replicate d (List.replicate (matWidth m + d) 0)

/-- Lines 155-163: allocate the matrix at size `max_label + 1` if absent,
else zero-pad it when `max_label ≥ shape[0]`. -/
def growCM (cm : Option Mat) (maxLabel : Nat) : Mat :=
  match cm with
  | none => zerosM (maxLabel + 1)
  | some m =>
    if m.length ≤ maxLabel then padSquare m (maxLabel + 1 - m.length) else m

/-- `m[i][j] += 1` with the bounds check torch performs; `none` models
the `IndexError`. -/
def incAt (m : Mat) (i j : Nat) : Option Mat :=
  match m[i]? with
  | none => none
  | some row =>
    match row[j]? with
    | none => none
    | some v => some (m.set i (row.set j (v + 1)))

/-- Lines 165-166: the increment loop over all samples.  On an
out-of-range index the partially mutated matrix is kept, as the Python
in-place loop would leave it. -/
def bump : Mat → List (Nat × Nat) → Mat × Option CMError
  | m, [] => (m, none)
  | m, (t, p) :: rest =>
    match incAt m t p with
    | none => (m, some .indexError)
    | some m' => bump m' rest

/-- `ConfusionMatrix.update` (lines 97-166).  Returns the state after
the call together with the error it raises, if any. -/
def update (s : CMState) (ty py : Tensor) : CMState × Option CMError :=
  if ty.tlen ≠ py.tlen then (s, some .sizeMismatch)
  else if 2 < ty.ndims then (s, some .trueTooManyDims)
  else if 2 < py.ndims then (s, some .predTooManyDims)
  else
    match procSide s.numClasses (ml0 s) true (truncate s.numClasses (ml0 s) py) with
    | .error e => (s, some e)
    | .ok (ml1, pIdx) =>
      match procSide s.numClasses ml1 false (truncate s.numClasses (ml0 s) ty) with
      | .error e => (s, some e)
      | .ok (ml2, tIdx) =>
        if ml2 < 0 then (s, some .noPositiveLabels)
        else
          ({ s with cm := some (bump (growCM s.cm ml2.toNat) (tIdx.zip pIdx)).1 },
           (bump (growCM s.cm ml2.toNat) (tIdx.zip pIdx)).2)

/-- A float64 value as produced by the normalizing division: finite,
infinite, or NaN. -/
inductive F64 where
  | fin (q : ℚ)
  | posInf
  | negInf
  | nan
  deriving DecidableEq

/-- IEEE float64 division of finite operands. -/
def fdiv (x y : ℚ) : F64 :=
  if y ≠ 0 then .fin (x / y)
  else if 0 < x then .posInf
  else if x < 0 then .negInf
  else .nan

/-- The largest finite float64, `np.nan_to_num`'s stand-in for +inf. -/
def f64Max : ℚ := (2 ^ 53 - 1) * 2 ^ 971

/-- `ConfusionMatrix.nan_to_num` on one cell (`np.nan_to_num` defaults:
NaN becomes 0, infinities become the extreme finite float64). -/
def nanToNum : F64 → ℚ
  | .fin q => q
  | .posInf => f64Max
  | .negInf => -f64Max
  | .nan => 0

/-- One row of `cm / cm.sum(dim=1, keepdim=True, dtype=torch.float64)`
followed by `nan_to_num`. -/
def rowNormTrue (r : List Nat) : List ℚ :=
  r.map (fun (v : Nat) => nanToNum (fdiv (v : ℚ) ((r.map (fun (u : Nat) => (u : ℚ))).sum)))

/-- `normalization == 'true'`: divide every row by its row sum. -/
def normTrue (m : Mat) : List (List ℚ) := m.map rowNormTrue

/-- Column sum `cm.sum(dim=0, keepdim=True, dtype=torch.float64)` at
column `j`. -/
def colSum (m : Mat) (j : Nat) : ℚ :=
  (m.map (fun (r : List Nat) => ((r.getD j 0 : Nat) : ℚ))).sum

/-- `normalization == 'pred'`: divide every column by its column sum. -/
def normPred (m : Mat) : List (List ℚ) :=
  m.map (fun (r : List Nat) => r.mapIdx (fun (j : Nat) (v : Nat) => nanToNum (fdiv (v : ℚ) (colSum m j))))

/-- `cm.sum(dtype=torch.float64)`: the grand total. -/
def totalSum (m : Mat) : ℚ :=
  (m.map (fun (r : List Nat) => (r.map (fun (v : Nat) => (v : ℚ))).sum)).sum

/-- `normalization == 'all'`: divide every cell by the grand total. -/
def normAll (m : Mat) : List (List ℚ) :=
  m.map (fun (r : List Nat) => r.map (fun (v : Nat) => nanToNum (fdiv (v : ℚ) (totalSum m))))

/-- `ConfusionMatrix._normalize_cm` (lines 197-211). -/
def normalizeCM (m : Mat) (mode : String) : Except CMError (List (List ℚ)) :=
  if mode ≠ "true" ∧ mode ≠ "pred" ∧ mode ≠ "all" then .error .invalidNormalization
  else if mode = "true" then .ok (normTrue m)
  else if mode = "pred" then .ok (normPred m)
  else .ok (normAll m)

/-- What `result` returns: the raw `torch.long` counts or a normalized
float64 matrix. -/
inductive OutTensor where
  | longMat (m : Mat)
  | floatMat (m : List (List ℚ))
  deriving DecidableEq

/-- `ConfusionMatrix.result` (lines 168-184): the returned tensor (or
raised error) paired with the state after the call. -/
def result (s : CMState) : Except CMError OutTensor × CMState :=
  match s.cm with
  | none =>
    match s.numClasses with
    | none => (.ok (.longMat (zerosM 0)), s)
    | some k => (.ok (.longMat (zerosM k)), s)
  | some m =>
    match s.normalize with
    | none => (.ok (.longMat m), s)
    | some mode =>
      match normalizeCM m mode with
      | .error e => (.error e, s)
      | .ok fm => (.ok (.floatMat fm), s)

/-- `ConfusionMatrix.reset` (lines 186-195). -/
def reset (s : CMState) : CMState := { s with cm := none }

/-- The stored matrix is square. -/
def isSquare (m : Mat) : Prop := ∀ r ∈ m, r.length = m.length

/-- State invariant: if the matrix exists it is square. -/
def CMState.WF (s : CMState) : Prop := ∀ m, s.cm = some m → isSquare m

/-- Cell read with zero default. -/
def getC (m : Mat) (i j : Nat) : Nat := (m.getD i []).getD j 0

/-- Sum of all cells. -/
def sumCells (m : Mat) : Nat := (m.map List.sum).sum

/-- Side length of the stored matrix (0 when absent). -/
def sizeS (s : CMState) : Nat :=
  match s.cm with
  | none => 0
  | some m => m.length

/-- Sum of all stored cells (0 when absent). -/
def sumCellsS (s : CMState) : Nat :=
  match s.cm with
  | none => 0
  | some m => sumCells m

/-- Run a sequence of `update` calls, stopping with `none` if any call
raises. -/
def runUpdates : CMState → List (Tensor × Tensor) → Option CMState
  | s, [] => some s
  | s, (t, p) :: rest =>
    match update s t p with
    | (s', none) => runUpdates s' rest
    | (_, some _) => none

/-- Total number of samples supplied by a sequence of update calls. -/
def totalSamples (batches : List (Tensor × Tensor)) : Nat :=
  (batches.map (fun b => b.1.tlen)).sum

/-! ### List-level helper lemmas -/

lemma getD_append_lt {α : Type} (dflt : α) (a b : List α) :
    ∀ i, i < a.length → (a ++ b).getD i dflt = a.getD i dflt := by
  induction a with
  | nil => intro i h; simp at h
  | cons x t ih =>
    intro i h
    cases i with
    | zero => rfl
    | succ n => exact ih n (by simpa using h)

lemma getD_append_ge {α : Type} (dflt : α) (a b : List α) :
    ∀ i, a.length ≤ i → (a ++ b).getD i dflt = b.getD (i - a.length) dflt := by
  induction a with
  | nil => intro i _; simp
  | cons x t ih =>
    intro i h
    cases i with
    | zero => simp at h
    | succ n => simpa using ih n (by simpa using h)

lemma getD_replicate {α : Type} (x dflt : α) :
    ∀ d j, (List.replicate d x).getD j dflt = if j < d then x else dflt := by
  intro d
  induction d with
  | zero => intro j; simp
  | succ n ih =>
    intro j
    cases j with
    | zero => simp [List.replicate]
    | succ k =>
      rw [show List.replicate (n + 1) x = x :: List.replicate n x from rfl,
        List.getD_cons_succ, ih k]
      simp [Nat.succ_lt_succ_iff]

lemma getD_map_lt (f : List Nat → List Nat) :
    ∀ (m : Mat) i, i < m.length → (m.map f).getD i [] = f (m.getD i []) := by
  intro m
  induction m with
  | nil => intro i h; simp at h
  | cons r t ih =>
    intro i h
    cases i with
    | zero => rfl
    | succ n => exact ih n (by simpa using h)

lemma getD_mem {α : Type} (dflt : α) :
    ∀ (l : List α) i, i < l.length → l.getD i dflt ∈ l := by
  intro l
  induction l with
  | nil => intro i h; simp at h
  | cons x t ih =>
    intro i h
    cases i with
    | zero => exact List.mem_cons_self x t
    | succ n => exact List.mem_cons_of_mem x (ih n (by simpa using h))

lemma sum_replicate_zero : ∀ n : Nat, (List.replicate n (0 : Nat)).sum = 0 := by
  intro n
  induction n with
  | zero => rfl
  | succ k ih => simp [List.replicate, ih]

lemma sum_set_succ : ∀ (l : List Nat) (j v : Nat), l[j]? = some v →
    (l.set j (v + 1)).sum = l.sum + 1 := by
  intro l
  induction l with
  | nil => intro j v h; simp at h
  | cons a t ih =>
    intro j v h
    cases j with
    | zero =>
      simp only [List.getElem?_cons_zero, Option.some.injEq] at h
      subst h
      simp [List.set]
      omega
    | succ n =>
      simp only [List.getElem?_cons_succ] at h
      simp [List.set, ih n v h]
      omega

lemma map_set_comm (f : List Nat → Nat) :
    ∀ (l : Mat) (n : Nat) (a : List Nat),
      (l.set n a).map f = (l.map f).set n (f a) := by
  intro l
  induction l with
  | nil => intro n a; simp
  | cons x t ih =>
    intro n a
    cases n with
    | zero => simp [List.set]
    | succ k => simp [List.set, ih k a]

lemma foldl_min_le_init : ∀ (l : List Int) (a : Int), l.foldl min a ≤ a := by
  intro l
  induction l with
  | nil => intro a; exact le_refl a
  | cons x t ih =>
    intro a
    exact le_trans (ih (min a x)) (min_le_left a x)

lemma foldl_min_le_of_mem :
    ∀ (t : List Int) (a v : Int), v ∈ a :: t → t.foldl min a ≤ v := by
  intro t
  induction t with
  | nil =>
    intro a v hv
    rcases List.mem_cons.1 hv with rfl | h
    · exact le_refl v
    · simp at h
  | cons x r ih =>
    intro a v hv
    rcases List.mem_cons.1 hv with rfl | h
    · exact le_trans (foldl_min_le_init (x :: r) v) (le_refl v)
    · rcases List.mem_cons.1 h with rfl | h2
      · exact le_trans (foldl_min_le_init r (min a v)) (min_le_right a v)
      · exact ih (min a x) v (List.mem_cons_of_mem _ h2)

lemma le_foldl_max_init : ∀ (l : List Int) (a : Int), a ≤ l.foldl max a := by
  intro l
  induction l with
  | nil => intro a; exact le_refl a
  | cons x t ih =>
    intro a
    exact le_trans (le_max_left a x) (ih (max a x))

lemma le_foldl_max_of_mem :
    ∀ (t : List Int) (a v : Int), v ∈ a :: t → v ≤ t.foldl max a := by
  intro t
  induction t with
  | nil =>
    intro a v hv
    rcases List.mem_cons.1 hv with rfl | h
    · exact le_refl v
    · simp at h
  | cons x r ih =>
    intro a v hv
    rcases List.mem_cons.1 hv with rfl | h
    · exact le_foldl_max_init (x :: r) v
    · rcases List.mem_cons.1 h with rfl | h2
      · exact le_trans (le_max_right a v) (le_foldl_max_init r (max a v))
      · exact ih (max a x) v (List.mem_cons_of_mem _ h2)

/-! ### Arg-max lemmas -/

lemma argmaxAux_lt :
    ∀ (l : List ℚ) (b : ℚ) (bi i : Nat), bi < i → argmaxAux b bi i l < i + l.length := by
  intro l
  induction l with
  | nil =>
    intro b bi i h
    simpa [argmaxAux] using h
  | cons x xs ih =>
    intro b bi i h
    by_cases hx : b < x
    · simp only [argmaxAux, if_pos hx]
      have := ih x i (i + 1) (Nat.lt_succ_self i)
      simpa [Nat.add_comm, Nat.add_assoc, Nat.add_left_comm] using this
    · simp only [argmaxAux, if_neg hx]
      have := ih b bi (i + 1) (Nat.lt_succ_of_lt h)
      simpa [Nat.add_comm, Nat.add_assoc, Nat.add_left_comm] using this

lemma argmaxRow_lt (r : List ℚ) (i : Nat) (h : argmaxRow r = some i) :
    i < r.length := by
  cases r with
  | nil => simp [argmaxRow] at h
  | cons x xs =>
    simp only [argmaxRow, Option.some.injEq] at h
    subst h
    have := argmaxAux_lt xs x 0 1 Nat.zero_lt_one
    simp only [List.length_cons]
    omega

lemma argmaxAll_length :
    ∀ (rows : List (List ℚ)) (idxs : List Nat),
      argmaxAll rows = some idxs → idxs.length = rows.length := by
  intro rows
  induction rows with
  | nil => intro idxs h; simp [argmaxAll] at h; simp [← h]
  | cons r rs ih =>
    intro idxs h
    simp only [argmaxAll] at h
    cases h1 : argmaxRow r with
    | none => rw [h1] at h; simp at h
    | some i =>
      rw [h1] at h
      cases h2 : argmaxAll rs with
      | none => rw [h2] at h; simp at h
      | some is =>
        rw [h2] at h
        simp only [Option.some.injEq] at h
        subst h
        simp [ih is h2]

lemma argmaxAll_mem :
    ∀ (rows : List (List ℚ)) (idxs : List Nat),
      argmaxAll rows = some idxs →
      ∀ i ∈ idxs, ∃ r ∈ rows, argmaxRow r = some i := by
  intro rows
  induction rows with
  | nil =>
    intro idxs h
    simp [argmaxAll] at h
    subst h
    intro i hi
    simp at hi
  | cons r rs ih =>
    intro idxs h
    simp only [argmaxAll] at h
    cases h1 : argmaxRow r with
    | none => rw [h1] at h; simp at h
    | some i0 =>
      rw [h1] at h
      cases h2 : argmaxAll rs with
      | none => rw [h2] at h; simp at h
      | some is =>
        rw [h2] at h
        simp only [Option.some.injEq] at h
        subst h
        intro i hi
        rcases List.mem_cons.1 hi with rfl | hmem
        · exact ⟨r, List.mem_cons_self _ _, h1⟩
        · obtain ⟨r', hr', hidx⟩ := ih is h2 i hmem
          exact ⟨r', List.mem_cons_of_mem _ hr', hidx⟩

/-! ### Increment-loop lemmas -/

lemma incAt_props (m m' : Mat) (i j : Nat) (h : incAt m i j = some m') :
    m'.length = m.length ∧ (isSquare m → isSquare m') ∧
      sumCells m' = sumCells m + 1 := by
  unfold incAt at h
  split at h
  · exact absurd h (by simp)
  next row hm =>
    split at h
    · exact absurd h (by simp)
    next v hr =>
      simp only [Option.some.injEq] at h
      subst h
      have hrowmem : row ∈ m := List.getElem?_mem hm
      refine ⟨List.length_set m i _, ?_, ?_⟩
      · intro hs r hrm
        rw [List.length_set]
        rcases List.mem_or_eq_of_mem_set hrm with h1 | h1
        · exact hs r h1
        · rw [h1, List.length_set]
          exact hs row hrowmem
      · unfold sumCells
        rw [map_set_comm List.sum m i (row.set j (v + 1)),
          sum_set_succ row j v hr]
        have hms : (m.map List.sum)[i]? = some row.sum := by
          rw [List.getElem?_map, hm]
          rfl
        exact sum_set_succ (m.map List.sum) i row.sum hms

lemma bump_err_cases :
    ∀ (ps : List (Nat × Nat)) (m : Mat),
      (bump m ps).2 = none ∨ (bump m ps).2 = some .indexError := by
  intro ps
  induction ps with
  | nil => intro m; exact Or.inl rfl
  | cons pr rest ih =>
    intro m
    obtain ⟨t, p⟩ := pr
    simp only [bump]
    cases h : incAt m t p with
    | none => exact Or.inr rfl
    | some m' => exact ih m'

lemma bump_shape :
    ∀ (ps : List (Nat × Nat)) (m : Mat), isSquare m →
      (bump m ps).1.length = m.length ∧ isSquare (bump m ps).1 := by
  intro ps
  induction ps with
  | nil => intro m hs; exact ⟨rfl, hs⟩
  | cons pr rest ih =>
    intro m hs
    obtain ⟨t, p⟩ := pr
    simp only [bump]
    cases h : incAt m t p with
    | none => exact ⟨rfl, hs⟩
    | some m' =>
      obtain ⟨hlen, hsq, _⟩ := incAt_props m m' t p h
      obtain ⟨hlen', hsq'⟩ := ih m' (hsq hs)
      exact ⟨hlen'.trans hlen, hsq'⟩

lemma bump_sum :
    ∀ (ps : List (Nat × Nat)) (m : Mat), (bump m ps).2 = none →
      sumCells (bump m ps).1 = sumCells m + ps.length := by
  intro ps
  induction ps with
  | nil => intro m _; rfl
  | cons pr rest ih =>
    intro m hok
    obtain ⟨t, p⟩ := pr
    simp only [bump] at hok ⊢
    cases h : incAt m t p with
    | none => rw [h] at hok; simp at hok
    | some m' =>
      rw [h] at hok
      obtain ⟨_, _, hsum⟩ := incAt_props m m' t p h
      rw [ih m' hok, hsum]
      simp
      omega

lemma bump_ok :
    ∀ (ps : List (Nat × Nat)) (m : Mat), isSquare m →
      (∀ pr ∈ ps, pr.1 < m.length ∧ pr.2 < m.length) →
      (bump m ps).2 = none := by
  intro ps
  induction ps with
  | nil => intro m _ _; rfl
  | cons pr rest ih =>
    intro m hsq hb
    obtain ⟨t, p⟩ := pr
    obtain ⟨ht, hp⟩ := hb (t, p) (List.mem_cons_self _ _)
    have hrow : m[t]? = some m[t] := List.getElem?_eq_getElem ht
    have hrlen : m[t].length = m.length := hsq m[t] (List.getElem_mem ht)
    have hcol : m[t][p]? = some m[t][p] :=
      List.getElem?_eq_getElem (by rw [hrlen]; exact hp)
    have hinc : incAt m t p = some (m.set t (m[t].set p (m[t][p] + 1))) := by
      simp only [incAt, hrow, hcol]
    simp only [bump, hinc]
    obtain ⟨hlen, hsq', _⟩ := incAt_props m _ t p hinc
    refine ih _ (hsq' hsq) ?_
    intro pr' hpr'
    rw [hlen]
    exact hb pr' (List.mem_cons_of_mem _ hpr')

/-! ### Padding and allocation lemmas -/

lemma matWidth_eq (m : Mat) (hs : isSquare m) (hne : m ≠ []) :
    matWidth m = m.length := by
  cases m with
  | nil => exact absurd rfl hne
  | cons r t => exact hs r (List.mem_cons_self _ _)

lemma padSquare_length (m : Mat) (d : Nat) :
    (padSquare m d).length = m.length + d := by
  simp [padSquare]

lemma padSquare_square (m : Mat) (d : Nat) (hs : isSquare m) :
    isSquare (padSquare m d) := by
  intro r hr
  rw [padSquare_length]
  rcases List.mem_append.1 hr with h | h
  · rcases List.mem_map.1 h with ⟨r₀, hr₀, rfl⟩
    simp [hs r₀ hr₀]
  · rw [List.eq_of_mem_replicate h]
    simp only [List.length_replicate]
    cases hm : m with
    | nil => subst hm; simp [matWidth]
    | cons a t =>
      rw [← hm, matWidth_eq m hs (by rw [hm]; exact List.cons_ne_nil a t)]

lemma getD_append_zeros (d : Nat) : ∀ (r : List Nat) (j : Nat),
    (r ++ List.replicate d 0).getD j 0 = r.getD j 0 := by
  intro r
  induction r with
  | nil => intro j; simp [getD_replicate]
  | cons x t ih =>
    intro j
    cases j with
    | zero => rfl
    | succ n => simpa using ih n

lemma padSquare_getC_old (m : Mat) (d i j : Nat) (hi : i < m.length) :
    getC (padSquare m d) i j = getC m i j := by
  unfold getC padSquare
  rw [getD_append_lt [] _ _ i (by simpa using hi),
    getD_map_lt _ m i hi]
  exact getD_append_zeros d (m.getD i []) j

lemma padSquare_getC_new (m : Mat) (d i j : Nat) (hs : isSquare m)
    (hij : m.length ≤ i ∨ m.length ≤ j) :
    getC (padSquare m d) i j = 0 := by
  unfold getC padSquare
  rcases hij with hi | hj
  · rw [getD_append_ge [] _ _ i (by simpa using hi)]
    rw [getD_replicate]
    by_cases hd : i - (m.map (fun r => r ++ List.replicate d 0)).length < d
    · rw [if_pos hd, getD_replicate]
      split <;> rfl
    · rw [if_neg hd]
      rfl
  · by_cases hi : i < m.length
    · rw [getD_append_lt [] _ _ i (by simpa using hi),
        getD_map_lt _ m i hi,
        getD_append_ge 0 _ _ j (by rw [hs (m.getD i []) (getD_mem [] m i hi)]; exact hj),
        getD_replicate]
      split <;> rfl
    · rw [getD_append_ge [] _ _ i (by simpa using Nat.le_of_not_lt hi),
        getD_replicate]
      by_cases hd : i - (m.map (fun r => r ++ List.replicate d 0)).length < d
      · rw [if_pos hd, getD_replicate]
        split <;> rfl
      · rw [if_neg hd]
        rfl

lemma sumCells_padSquare (m : Mat) (d : Nat) :
    sumCells (padSquare m d) = sumCells m := by
  unfold sumCells padSquare
  rw [List.map_append, List.sum_append, List.map_map, List.map_replicate]
  have h1 : m.map (List.sum ∘ fun r => r ++ List.replicate d 0) = m.map List.sum := by
    apply List.map_congr_left
    intro r _
    simp [Function.comp, sum_replicate_zero]
  rw [h1, List.sum_replicate, sum_replicate_zero]
  simp

lemma zerosM_square (n : Nat) : isSquare (zerosM n) := by
  intro r hr
  rw [List.eq_of_mem_replicate hr]
  simp [zerosM]

lemma sumCells_zerosM (n : Nat) : sumCells (zerosM n) = 0 := by
  unfold sumCells zerosM
  rw [List.map_replicate, sum_replicate_zero n]
  exact sum_replicate_zero n

lemma growCM_square (cm : Option Mat) (n : Nat)
    (h : ∀ m, cm = some m → isSquare m) : isSquare (growCM cm n) := by
  cases cm with
  | none => exact zerosM_square (n + 1)
  | some m =>
    simp only [growCM]
    split
    · exact padSquare_square m _ (h m rfl)
    · exact h m rfl

lemma growCM_length_gt (cm : Option Mat) (n : Nat) :
    n < (growCM cm n).length := by
  cases cm with
  | none => simp [growCM, zerosM]
  | some m =>
    simp only [growCM]
    split
    next hle => rw [padSquare_length]; omega
    next hgt => omega

lemma growCM_length_ge (cm : Option Mat) (n : Nat) (m : Mat) (h : cm = some m) :
    m.length ≤ (growCM cm n).length := by
  subst h
  simp only [growCM]
  split
  · rw [padSquare_length]; omega
  · omega

lemma growCM_sum (cm : Option Mat) (n : Nat) :
    sumCells (growCM cm n) = (match cm with | none => 0 | some m => sumCells m) := by
  cases cm with
  | none => exact sumCells_zerosM (n + 1)
  | some m =>
    simp only [growCM]
    split
    · exact sumCells_padSquare m _
    · rfl

lemma growCM_getC_old (cm : Option Mat) (n : Nat) (m : Mat) (h : cm = some m)
    (i j : Nat) (hi : i < m.length) :
    getC (growCM cm n) i j = getC m i j := by
  subst h
  simp only [growCM]
  split
  · exact padSquare_getC_old m _ i j hi
  · rfl

/-! ### Truncation lemmas -/

lemma pyTake_length {α : Type} (k : Int) (xs : List α) :
    (pyTake k xs).length = pyTakeLen k xs.length := by
  unfold pyTake pyTakeLen
  split
  · simp [List.length_take]
  · simp [List.length_take]

lemma truncate_tlen (nc : Option Nat) (ml : Int) (t : Tensor) :
    (truncate nc ml t).tlen = t.tlen := by
  cases t with
  | oneD xs => rfl
  | higherD n d => rfl
  | twoD w rows =>
    cases nc with
    | none => rfl
    | some k => simp [truncate, Tensor.tlen]

lemma truncate_oneD (nc : Option Nat) (ml : Int) (xs : List Int) :
    truncate nc ml (.oneD xs) = .oneD xs := rfl

lemma truncate_none (ml : Int) (t : Tensor) : truncate none ml t = t := by
  cases t <;> rfl

lemma truncate_WF (nc : Option Nat) (ml : Int) (t : Tensor) (h : t.WF) :
    (truncate nc ml t).WF := by
  cases t with
  | oneD xs => exact trivial
  | higherD n d => exact trivial
  | twoD w rows =>
    cases nc with
    | none => exact h
    | some k =>
      intro r hr
      rcases List.mem_map.1 hr with ⟨r₀, hr₀, rfl⟩
      rw [pyTake_length, h r₀ hr₀]

lemma pyTakeLen_le (k : Int) (n : Nat) (hk : 0 ≤ k) :
    (pyTakeLen k n : Int) ≤ k := by
  unfold pyTakeLen
  rw [if_pos hk]
  have h1 : min k.toNat n ≤ k.toNat := Nat.min_le_left _ _
  omega

/-! ### procSide lemmas -/

lemma procSide_ml_mono (nc : Option Nat) (ml : Int) (b : Bool) (t : Tensor)
    (ml' : Int) (idxs : List Nat)
    (h : procSide nc ml b t = .ok (ml', idxs)) : ml ≤ ml' := by
  cases t with
  | higherD n d => simp [procSide] at h
  | twoD w rows =>
    cases nc with
    | none =>
      simp only [procSide] at h
      cases h1 : argmaxAll rows with
      | none => rw [h1] at h; simp at h
      | some idxs0 =>
        rw [h1] at h
        simp only [Except.ok.injEq, Prod.mk.injEq] at h
        rw [← h.1]
        exact le_max_left _ _
    | some k =>
      simp only [procSide] at h
      cases h1 : argmaxAll rows with
      | none => rw [h1] at h; simp at h
      | some idxs0 =>
        rw [h1] at h
        simp only [Except.ok.injEq, Prod.mk.injEq] at h
        rw [← h.1]
  | oneD xs =>
    cases xs with
    | nil => simp [procSide] at h
    | cons x l =>
      cases nc with
      | none =>
        simp only [procSide] at h
        split at h
        · simp at h
        · simp only [Except.ok.injEq, Prod.mk.injEq] at h
          rw [← h.1]
          exact le_max_left _ _
      | some k =>
        simp only [procSide] at h
        split at h
        · simp at h
        · split at h
          · simp at h
          · simp only [Except.ok.injEq, Prod.mk.injEq] at h
            rw [← h.1]

lemma procSide_some_ml (k : Nat) (ml : Int) (b : Bool) (t : Tensor)
    (ml' : Int) (idxs : List Nat)
    (h : procSide (some k) ml b t = .ok (ml', idxs)) : ml' = ml := by
  cases t with
  | higherD n d => simp [procSide] at h
  | twoD w rows =>
    simp only [procSide] at h
    cases h1 : argmaxAll rows with
    | none => rw [h1] at h; simp at h
    | some idxs0 =>
      rw [h1] at h
      simp only [Except.ok.injEq, Prod.mk.injEq] at h
      exact h.1.symm
  | oneD xs =>
    cases xs with
    | nil => simp [procSide] at h
    | cons x l =>
      simp only [procSide] at h
      split at h
      · simp at h
      · split at h
        · simp at h
        · simp only [Except.ok.injEq, Prod.mk.injEq] at h
          exact h.1.symm

lemma procSide_length (nc : Option Nat) (ml : Int) (b : Bool) (t : Tensor)
    (ml' : Int) (idxs : List Nat)
    (h : procSide nc ml b t = .ok (ml', idxs)) : idxs.length = t.tlen := by
  cases t with
  | higherD n d => simp [procSide] at h
  | twoD w rows =>
    cases nc with
    | none =>
      simp only [procSide] at h
      cases h1 : argmaxAll rows with
      | none => rw [h1] at h; simp at h
      | some idxs0 =>
        rw [h1] at h
        simp only [Except.ok.injEq, Prod.mk.injEq] at h
        rw [← h.2]
        exact argmaxAll_length rows idxs0 h1
    | some k =>
      simp only [procSide] at h
      cases h1 : argmaxAll rows with
      | none => rw [h1] at h; simp at h
      | some idxs0 =>
        rw [h1] at h
        simp only [Except.ok.injEq, Prod.mk.injEq] at h
        rw [← h.2]
        exact argmaxAll_length rows idxs0 h1
  | oneD xs =>
    cases xs with
    | nil => simp [procSide] at h
    | cons x l =>
      cases nc with
      | none =>
        simp only [procSide] at h
        split at h
        · simp at h
        · simp only [Except.ok.injEq, Prod.mk.injEq] at h
          rw [← h.2]
          simp [Tensor.tlen]
      | some k =>
        simp only [procSide] at h
        split at h
        · simp at h
        · split at h
          · simp at h
          · simp only [Except.ok.injEq, Prod.mk.injEq] at h
            rw [← h.2]
            simp [Tensor.tlen]

lemma procSide_twoD_bound (nc : Option Nat) (ml : Int) (b : Bool)
    (w : Nat) (rows : List (List ℚ)) (ml' : Int) (idxs : List Nat)
    (h : procSide nc ml b (.twoD w rows) = .ok (ml', idxs))
    (hwf : ∀ r ∈ rows, r.length = w) :
    ∀ i ∈ idxs, i < w := by
  have hall : argmaxAll rows = some idxs := by
    cases nc with
    | none =>
      simp only [procSide] at h
      cases h1 : argmaxAll rows with
      | none => rw [h1] at h; simp at h
      | some idxs0 =>
        rw [h1] at h
        simp only [Except.ok.injEq, Prod.mk.injEq] at h
        rw [h.2]
    | some k =>
      simp only [procSide] at h
      cases h1 : argmaxAll rows with
      | none => rw [h1] at h; simp at h
      | some idxs0 =>
        rw [h1] at h
        simp only [Except.ok.injEq, Prod.mk.injEq] at h
        rw [h.2]
  intro i hi
  obtain ⟨r, hr, hidx⟩ := argmaxAll_mem rows idxs hall i hi
  have := argmaxRow_lt r i hidx
  rw [hwf r hr] at this
  exact this

lemma procSide_none_oneD_bound (ml : Int) (b : Bool) (xs : List Int)
    (ml' : Int) (idxs : List Nat)
    (h : procSide none ml b (.oneD xs) = .ok (ml', idxs)) :
    ∀ i ∈ idxs, (i : Int) ≤ ml' := by
  cases xs with
  | nil => simp [procSide] at h
  | cons x l =>
    simp only [procSide] at h
    split at h
    · simp at h
    next hmin =>
      simp only [Except.ok.injEq, Prod.mk.injEq] at h
      intro i hi
      rw [← h.2] at hi
      rcases List.mem_map.1 hi with ⟨v, hv, rfl⟩
      have h0 : 0 ≤ v :=
        le_trans (Int.not_lt.1 hmin) (foldl_min_le_of_mem l x v hv)
      have hmax : v ≤ l.foldl max x := le_foldl_max_of_mem l x v hv
      rw [← h.1]
      rw [Int.toNat_of_nonneg h0]
      exact le_trans hmax (le_max_right _ _)

lemma procSide_some_oneD_bound (k : Nat) (ml : Int) (b : Bool) (xs : List Int)
    (ml' : Int) (idxs : List Nat)
    (h : procSide (some k) ml b (.oneD xs) = .ok (ml', idxs)) :
    ∀ i ∈ idxs, i < k := by
  cases xs with
  | nil => simp [procSide] at h
  | cons x l =>
    simp only [procSide] at h
    split at h
    · simp at h
    next hmin =>
      split at h
      · simp at h
      next hge =>
        simp only [Except.ok.injEq, Prod.mk.injEq] at h
        intro i hi
        rw [← h.2] at hi
        rcases List.mem_map.1 hi with ⟨v, hv, rfl⟩
        have h0 : 0 ≤ v :=
          le_trans (Int.not_lt.1 hmin) (foldl_min_le_of_mem l x v hv)
        have hmax : v ≤ l.foldl max x := le_foldl_max_of_mem l x v hv
        have hlt : l.foldl max x < (k : Int) := Int.not_le.1 hge
        omega

lemma procSide_err_ne_index (nc : Option Nat) (ml : Int) (b : Bool)
    (t : Tensor) (e : CMError) (h : procSide nc ml b t = .error e) :
    e ≠ .indexError := by
  cases t with
  | higherD n d =>
    simp only [procSide, Except.error.injEq] at h
    subst h
    cases b <;> simp
  | twoD w rows =>
    cases nc with
    | none =>
      simp only [procSide] at h
      cases h1 : argmaxAll rows with
      | none =>
        rw [h1] at h
        simp only [Except.error.injEq] at h
        subst h
        simp
      | some idxs0 => rw [h1] at h; simp at h
    | some k =>
      simp only [procSide] at h
      cases h1 : argmaxAll rows with
      | none =>
        rw [h1] at h
        simp only [Except.error.injEq] at h
        subst h
        simp
      | some idxs0 => rw [h1] at h; simp at h
  | oneD xs =>
    cases xs with
    | nil =>
      simp only [procSide, Except.error.injEq] at h
      subst h
      simp
    | cons x l =>
      cases nc with
      | none =>
        simp only [procSide] at h
        split at h
        · simp only [Except.error.injEq] at h
          subst h
          simp
        · simp at h
      | some k =>
        simp only [procSide] at h
        split at h
        · simp only [Except.error.injEq] at h
          subst h
          simp
        · split at h
          · simp only [Except.error.injEq] at h
            subst h
            cases b <;> simp
          · simp at h

/-! ### `update` inversion lemmas -/

lemma update_ok_inv (s : CMState) (ty py : Tensor) (s' : CMState)
    (h : update s ty py = (s', none)) :
    ∃ ml1 pIdx ml2 tIdx,
      ty.tlen = py.tlen ∧
      procSide s.numClasses (ml0 s) true (truncate s.numClasses (ml0 s) py) =
        .ok (ml1, pIdx) ∧
      procSide s.numClasses ml1 false (truncate s.numClasses (ml0 s) ty) =
        .ok (ml2, tIdx) ∧
      0 ≤ ml2 ∧
      (bump (growCM s.cm ml2.toNat) (tIdx.zip pIdx)).2 = none ∧
      s' = { s with cm := some (bump (growCM s.cm ml2.toNat) (tIdx.zip pIdx)).1 } := by
  unfold update at h
  by_cases h1 : ty.tlen ≠ py.tlen
  · rw [if_pos h1] at h
    simp at h
  rw [if_neg h1] at h
  by_cases h2 : 2 < ty.ndims
  · rw [if_pos h2] at h
    simp at h
  rw [if_neg h2] at h
  by_cases h3 : 2 < py.ndims
  · rw [if_pos h3] at h
    simp at h
  rw [if_neg h3] at h
  cases hp : procSide s.numClasses (ml0 s) true (truncate s.numClasses (ml0 s) py) with
  | error e => simp only [hp] at h; simp at h
  | ok pr =>
    obtain ⟨ml1, pIdx⟩ := pr
    simp only [hp] at h
    cases ht : procSide s.numClasses ml1 false (truncate s.numClasses (ml0 s) ty) with
    | error e => simp only [ht] at h; simp at h
    | ok pr2 =>
      obtain ⟨ml2, tIdx⟩ := pr2
      simp only [ht] at h
      by_cases hm : ml2 < 0
      · rw [if_pos hm] at h
        simp at h
      rw [if_neg hm] at h
      rw [Prod.mk.injEq] at h
      exact ⟨ml1, pIdx, ml2, tIdx, not_not.1 h1, rfl, ht, Int.not_lt.1 hm,
        h.2, h.1.symm⟩

lemma update_err_inv (s : CMState) (ty py : Tensor) (s' : CMState) (e : CMError)
    (h : update s ty py = (s', some e)) :
    (s' = s ∧ e ≠ .indexError) ∨
    (∃ ml1 pIdx ml2 tIdx,
      procSide s.numClasses (ml0 s) true (truncate s.numClasses (ml0 s) py) =
        .ok (ml1, pIdx) ∧
      procSide s.numClasses ml1 false (truncate s.numClasses (ml0 s) ty) =
        .ok (ml2, tIdx) ∧
      0 ≤ ml2 ∧
      (bump (growCM s.cm ml2.toNat) (tIdx.zip pIdx)).2 = some e ∧
      s' = { s with cm := some (bump (growCM s.cm ml2.toNat) (tIdx.zip pIdx)).1 }) := by
  unfold update at h
  by_cases h1 : ty.tlen ≠ py.tlen
  · rw [if_pos h1] at h
    rw [Prod.mk.injEq] at h
    obtain ⟨hs, he⟩ := h
    rw [← Option.some_inj.1 he]
    exact Or.inl ⟨hs.symm, by simp⟩
  rw [if_neg h1] at h
  by_cases h2 : 2 < ty.ndims
  · rw [if_pos h2] at h
    rw [Prod.mk.injEq] at h
    obtain ⟨hs, he⟩ := h
    rw [← Option.some_inj.1 he]
    exact Or.inl ⟨hs.symm, by simp⟩
  rw [if_neg h2] at h
  by_cases h3 : 2 < py.ndims
  · rw [if_pos h3] at h
    rw [Prod.mk.injEq] at h
    obtain ⟨hs, he⟩ := h
    rw [← Option.some_inj.1 he]
    exact Or.inl ⟨hs.symm, by simp⟩
  rw [if_neg h3] at h
  cases hp : procSide s.numClasses (ml0 s) true (truncate s.numClasses (ml0 s) py) with
  | error e0 =>
    simp only [hp] at h
    rw [Prod.mk.injEq] at h
    obtain ⟨hs, he⟩ := h
    rw [← Option.some_inj.1 he]
    exact Or.inl ⟨hs.symm, procSide_err_ne_index _ _ _ _ e0 hp⟩
  | ok pr =>
    obtain ⟨ml1, pIdx⟩ := pr
    simp only [hp] at h
    cases ht : procSide s.numClasses ml1 false (truncate s.numClasses (ml0 s) ty) with
    | error e0 =>
      simp only [ht] at h
      rw [Prod.mk.injEq] at h
      obtain ⟨hs, he⟩ := h
      rw [← Option.some_inj.1 he]
      exact Or.inl ⟨hs.symm, procSide_err_ne_index _ _ _ _ e0 ht⟩
    | ok pr2 =>
      obtain ⟨ml2, tIdx⟩ := pr2
      simp only [ht] at h
      by_cases hm : ml2 < 0
      · rw [if_pos hm] at h
        rw [Prod.mk.injEq] at h
        obtain ⟨hs, he⟩ := h
        rw [← Option.some_inj.1 he]
        exact Or.inl ⟨hs.symm, by simp⟩
      rw [if_neg hm] at h
      rw [Prod.mk.injEq] at h
      exact Or.inr ⟨ml1, pIdx, ml2, tIdx, rfl, ht, Int.not_lt.1 hm, h.2, h.1.symm⟩

/-! ### Claim theorems -/

/-- C1: the claim states that with a fixed `num_classes` a 2-D
score-vector input is truncated to its first `num_classes` columns
before the per-sample arg-max.  The code instead slices
`[:, :num_classes - 1]`: with `num_classes = 2` and scores
`[[1, 9]]` only the first column survives, the derived predicted
index is 0, and the sample is recorded in cell (1,0) — although the
arg-max over the first `num_classes = 2` entries is 1. -/
theorem truncation_off_by_one_eval :
    update ⟨none, some 2, none⟩ (.oneD [1]) (.twoD 2 [[(1 : ℚ), 9]]) =
      (⟨some [[0, 0], [1, 0]], some 2, none⟩, none) ∧
    argmaxRow [(1 : ℚ), 9] = some 1 ∧
    truncate (some 2) (ml0 ⟨none, some 2, none⟩) (.twoD 2 [[(1 : ℚ), 9]]) =
      .twoD 1 [[(1 : ℚ)]] :=
  ⟨by decide, by decide, by decide⟩

/-- C2 counterexample: with an unrecognized normalization mode but no
update ever performed, `result()` does not fail — it returns the early
empty matrix before the normalization mode is ever inspected. -/
theorem result_invalid_mode_before_update :
    result ⟨none, none, some "bogus"⟩ =
      (.ok (.longMat (zerosM 0)), ⟨none, none, some "bogus"⟩) := rfl

/-- C2 (amended): with an unrecognized normalization mode, `result()`
fails with the unrecognized-normalization error at every call made while
the internal matrix exists (i.e. after at least one successful update);
before any update it instead returns the zero matrix without error. -/
theorem result_invalid_mode_after_update (s : CMState) (m : Mat) (mode : String)
    (hcm : s.cm = some m) (hn : s.normalize = some mode)
    (h1 : mode ≠ "true") (h2 : mode ≠ "pred") (h3 : mode ≠ "all") :
    (result s).1 = .error .invalidNormalization := by
  have hnorm : normalizeCM m mode = .error .invalidNormalization := by
    unfold normalizeCM
    rw [if_pos ⟨h1, h2, h3⟩]
  simp only [result, hcm, hn, hnorm]

/-- C2 witness: a state with a recorded observation and mode "bogus". -/
theorem result_invalid_mode_after_update_witness :
    (result ⟨some [[1]], none, some "bogus"⟩).1 = .error .invalidNormalization :=
  result_invalid_mode_after_update ⟨some [[1]], none, some "bogus"⟩ [[1]] "bogus"
    rfl rfl (by decide) (by decide) (by decide)

/-- C3: an `update` call that fails with a size mismatch, a
more-than-2-dimensional input, a negative direct label, or a direct
label at least the fixed `num_classes` leaves the state exactly as it
was: all of these validations happen before any mutation. -/
theorem update_atomic_on_validation_error (s : CMState) (ty py : Tensor)
    (s' : CMState) (e : CMError)
    (h : update s ty py = (s', some e))
    (he : e = .sizeMismatch ∨ e = .trueTooManyDims ∨ e = .predTooManyDims ∨
          e = .negativeLabel ∨ e = .predLabelTooLarge ∨ e = .targetLabelTooLarge) :
    s' = s := by
  rcases update_err_inv s ty py s' e h with ⟨hs, _⟩ |
    ⟨ml1, pIdx, ml2, tIdx, _, _, _, hb, _⟩
  · exact hs
  · exfalso
    rcases bump_err_cases (tIdx.zip pIdx) (growCM s.cm ml2.toNat) with h0 | h0
    · rw [hb] at h0
      simp at h0
    · rw [hb] at h0
      have he' : e = .indexError := Option.some_inj.1 h0
      subst he'
      rcases he with h' | h' | h' | h' | h' | h' <;> cases h'

/-- C3 witness: a mismatched-length update leaves the state unchanged. -/
theorem update_atomic_on_validation_error_witness :
    (update ⟨none, none, none⟩ (.oneD [0, 1]) (.oneD [0])).1 = ⟨none, none, none⟩ :=
  update_atomic_on_validation_error ⟨none, none, none⟩ (.oneD [0, 1]) (.oneD [0])
    (update ⟨none, none, none⟩ (.oneD [0, 1]) (.oneD [0])).1 .sizeMismatch
    (by decide) (Or.inl rfl)

/-- C5: on a never-updated (or just reset) accumulator, `result()`
returns a zero-filled `num_classes × num_classes` matrix when
`num_classes` is configured and a 0×0 matrix otherwise, and never
fails. -/
theorem result_empty_returns_zeros (s : CMState) (nc : Option Nat) (nm : Option String) :
    (result ⟨none, nc, nm⟩).1 = .ok (.longMat (zerosM (nc.getD 0))) ∧
    (result (reset s)).1 = .ok (.longMat (zerosM (s.numClasses.getD 0))) := by
  constructor
  · cases nc <;> rfl
  · rcases s with ⟨cm, snc, snm⟩
    cases snc <;> rfl

/-- C6: `result()` never modifies the state: the post-call state is the
pre-call state, a second call returns the same value, and the stored raw
counts are untouched (the normalized matrix is a fresh copy). -/
theorem result_preserves_state (s : CMState) :
    (result s).2 = s ∧ result ((result s).2) = result s ∧
      ((result s).2).cm = s.cm := by
  have h2 : (result s).2 = s := by
    unfold result
    split
    · split <;> rfl
    · split
      · rfl
      · split <;> rfl
  exact ⟨h2, by rw [h2], by rw [h2]⟩

lemma update_ok_sum (s : CMState) (ty py : Tensor) (s' : CMState)
    (h : update s ty py = (s', none)) :
    sumCellsS s' = sumCellsS s + ty.tlen := by
  obtain ⟨ml1, pIdx, ml2, tIdx, hlen, hp, ht, hml, hb, hs'⟩ :=
    update_ok_inv s ty py s' h
  subst hs'
  show sumCells (bump (growCM s.cm ml2.toNat) (tIdx.zip pIdx)).1 =
    sumCellsS s + ty.tlen
  rw [bump_sum _ _ hb, growCM_sum]
  have hlp : pIdx.length = py.tlen := by
    rw [procSide_length _ _ _ _ _ _ hp, truncate_tlen]
  have hlt : tIdx.length = ty.tlen := by
    rw [procSide_length _ _ _ _ _ _ ht, truncate_tlen]
  rw [List.length_zip, hlp, hlt, ← hlen, Nat.min_self]
  unfold sumCellsS
  cases s.cm <;> rfl

/-- C4: starting from an accumulator with no stored matrix, a sequence
of update calls that all succeed, supplying direct integer labels with
values in `[0, K)`, leaves the sum of all matrix cells equal to the
total number of samples supplied. -/
theorem sum_cells_eq_total_samples (K : Nat) (s₀ : CMState) (hcm : s₀.cm = none)
    (batches : List (Tensor × Tensor))
    (_hlab : ∀ b ∈ batches, ∃ xs ys, b = (Tensor.oneD xs, Tensor.oneD ys) ∧
      ∀ v : Int, (v ∈ xs ∨ v ∈ ys) → 0 ≤ v ∧ v < (K : Int))
    (s' : CMState) (h : runUpdates s₀ batches = some s') :
    sumCellsS s' = totalSamples batches := by
  have main : ∀ (bs : List (Tensor × Tensor)) (u v : CMState),
      runUpdates u bs = some v → sumCellsS v = sumCellsS u + totalSamples bs := by
    intro bs
    induction bs with
    | nil =>
      intro u v hh
      simp only [runUpdates, Option.some.injEq] at hh
      subst hh
      simp [totalSamples]
    | cons b rest ih =>
      intro u v hh
      obtain ⟨t, p⟩ := b
      simp only [runUpdates] at hh
      cases hu : update u t p with
      | mk s1 e =>
        cases e with
        | none =>
          rw [hu] at hh
          rw [ih s1 v hh, update_ok_sum u t p s1 hu]
          simp only [totalSamples, List.map_cons, List.sum_cons]
          omega
        | some e0 =>
          rw [hu] at hh
          simp at hh
  rw [main batches s₀ s' h]
  simp [sumCellsS, hcm]

/-- C4 witness: two one-sample updates with labels below `K = 2` leave a
total count of 2. -/
theorem sum_cells_eq_total_samples_witness :
    sumCellsS ⟨some [[1, 0], [0, 1]], some 2, none⟩ =
      totalSamples [(.oneD [0], .oneD [0]), (.oneD [1], .oneD [1])] := by
  refine sum_cells_eq_total_samples 2 ⟨none, some 2, none⟩ rfl
    [(.oneD [0], .oneD [0]), (.oneD [1], .oneD [1])] ?_ _ (by decide)
  intro b hb
  rcases List.mem_cons.1 hb with rfl | hb2
  · refine ⟨[0], [0], rfl, fun v hv => ?_⟩
    have hv0 : v = 0 := by
      rcases hv with hv | hv <;> simpa using hv
    subst hv0
    exact ⟨le_refl 0, by decide⟩
  · rw [List.mem_singleton.1 hb2]
    refine ⟨[1], [1], rfl, fun v hv => ?_⟩
    have hv1 : v = 1 := by
      rcases hv with hv | hv <;> simpa using hv
    subst hv1
    exact ⟨by decide, by decide⟩

lemma procSide_neg_error (nc : Option Nat) (ml : Int) (b : Bool) (xs : List Int)
    (h : ∃ v ∈ xs, v < 0) :
    procSide nc ml b (.oneD xs) = .error .negativeLabel := by
  obtain ⟨v, hv, hneg⟩ := h
  cases xs with
  | nil => simp at hv
  | cons a t =>
    have hmin : t.foldl min a < 0 :=
      lt_of_le_of_lt (foldl_min_le_of_mem t a v hv) hneg
    cases nc with
    | none => simp [procSide, hmin]
    | some k => simp [procSide, hmin]

lemma procSide_ge_error (k : Nat) (ml : Int) (b : Bool) (xs : List Int)
    (h : ∃ v ∈ xs, (k : Int) ≤ v) :
    ∃ e, procSide (some k) ml b (.oneD xs) = .error e := by
  obtain ⟨v, hv, hge⟩ := h
  cases xs with
  | nil => simp at hv
  | cons a t =>
    by_cases hmin : t.foldl min a < 0
    · exact ⟨.negativeLabel, by simp [procSide, hmin]⟩
    · have hmax : (k : Int) ≤ t.foldl max a :=
        le_trans hge (le_foldl_max_of_mem t a v hv)
      refine ⟨if b then .predLabelTooLarge else .targetLabelTooLarge, ?_⟩
      simp [procSide, hmin, hmax]

lemma update_oneD_shape (s : CMState) (xs ys : List Int)
    (hlen : xs.length = ys.length) :
    update s (.oneD xs) (.oneD ys) =
      match procSide s.numClasses (ml0 s) true (.oneD ys) with
      | .error e => (s, some e)
      | .ok (ml1, pIdx) =>
        match procSide s.numClasses ml1 false (.oneD xs) with
        | .error e => (s, some e)
        | .ok (ml2, tIdx) =>
          if ml2 < 0 then (s, some .noPositiveLabels)
          else
            ({ s with cm := some (bump (growCM s.cm ml2.toNat) (tIdx.zip pIdx)).1 },
             (bump (growCM s.cm ml2.toNat) (tIdx.zip pIdx)).2) := by
  unfold update
  rw [if_neg (by simp [Tensor.tlen, hlen]),
    if_neg (by simp [Tensor.ndims]),
    if_neg (by simp [Tensor.ndims]),
    truncate_oneD, truncate_oneD]

/-- C7: with 1-D (direct-label) inputs of matching length, a negative
label in either tensor makes `update` fail, and with a fixed
`num_classes` a label at least `num_classes` in either tensor makes
`update` fail; concretely, with `num_classes = 3` and true labels
`[0, 5]`, `update` raises the target-label-out-of-range error. -/
theorem update_label_range_errors (s : CMState) (xs ys : List Int)
    (hlen : xs.length = ys.length) :
    (((∃ v ∈ xs, v < 0) ∨ (∃ v ∈ ys, v < 0)) →
      (update s (.oneD xs) (.oneD ys)).2 ≠ none) ∧
    (∀ k, s.numClasses = some k →
      ((∃ v ∈ xs, (k : Int) ≤ v) ∨ (∃ v ∈ ys, (k : Int) ≤ v)) →
      (update s (.oneD xs) (.oneD ys)).2 ≠ none) ∧
    update ⟨none, some 3, none⟩ (.oneD [0, 5]) (.oneD [0, 0]) =
      (⟨none, some 3, none⟩, some .targetLabelTooLarge) := by
  refine ⟨?_, ?_, by decide⟩
  · intro hneg
    rw [update_oneD_shape s xs ys hlen]
    rcases hneg with hx | hy
    · cases hp : procSide s.numClasses (ml0 s) true (.oneD ys) with
      | error e => simp [hp]
      | ok pr =>
        obtain ⟨ml1, pIdx⟩ := pr
        simp [hp, procSide_neg_error s.numClasses ml1 false xs hx]
    · simp [procSide_neg_error s.numClasses (ml0 s) true ys hy]
  · intro k hk hbad
    rw [update_oneD_shape s xs ys hlen, hk]
    rcases hbad with hx | hy
    · cases hp : procSide (some k) (ml0 s) true (.oneD ys) with
      | error e => simp [hp]
      | ok pr =>
        obtain ⟨ml1, pIdx⟩ := pr
        obtain ⟨e, he⟩ := procSide_ge_error k ml1 false xs hx
        simp [hp, he]
    · obtain ⟨e, he⟩ := procSide_ge_error k (ml0 s) true ys hy
      simp [he]

/-- C7 witness: a negative label and an out-of-range label both fail. -/
theorem update_label_range_errors_witness :
    (update ⟨none, none, none⟩ (.oneD [-1]) (.oneD [0])).2 ≠ none ∧
    (update ⟨none, some 3, none⟩ (.oneD [0, 5]) (.oneD [0, 0])).2 ≠ none := by
  constructor
  · exact (update_label_range_errors ⟨none, none, none⟩ [-1] [0] rfl).1
      (Or.inl ⟨-1, by decide, by decide⟩)
  · exact (update_label_range_errors ⟨none, some 3, none⟩ [0, 5] [0, 0] rfl).2.1
      3 rfl (Or.inl ⟨5, by decide, by decide⟩)

/-- C8: the stored matrix stays square and never shrinks across a
successful update, and growth happens only through `padSquare`, which
appends zero rows and columns while keeping every previously recorded
count at its original coordinates. -/
theorem cm_square_grow_by_zero_padding :
    (∀ (s : CMState) (ty py : Tensor) (s' : CMState), s.WF →
      update s ty py = (s', none) →
      ∃ m', s'.cm = some m' ∧ isSquare m' ∧ sizeS s ≤ m'.length) ∧
    (∀ (m : Mat) (d : Nat), isSquare m →
      (padSquare m d).length = m.length + d ∧ isSquare (padSquare m d) ∧
      (∀ i j, i < m.length → getC (padSquare m d) i j = getC m i j) ∧
      (∀ i j, m.length ≤ i ∨ m.length ≤ j → getC (padSquare m d) i j = 0)) := by
  constructor
  · intro s ty py s' hwf h
    obtain ⟨ml1, pIdx, ml2, tIdx, _, _, _, _, _, hs'⟩ := update_ok_inv s ty py s' h
    subst hs'
    refine ⟨(bump (growCM s.cm ml2.toNat) (tIdx.zip pIdx)).1, rfl, ?_, ?_⟩
    · exact (bump_shape (tIdx.zip pIdx) _ (growCM_square s.cm ml2.toNat hwf)).2
    · rw [(bump_shape (tIdx.zip pIdx) _ (growCM_square s.cm ml2.toNat hwf)).1]
      unfold sizeS
      cases hcm : s.cm with
      | none => exact Nat.zero_le _
      | some m => simpa using growCM_length_ge (some m) ml2.toNat m rfl
  · intro m d hs
    exact ⟨padSquare_length m d, padSquare_square m d hs,
      fun i j hi => padSquare_getC_old m d i j hi,
      fun i j hij => padSquare_getC_new m d i j hs hij⟩

/-- C8 witness: a first update allocates a square 2×2 matrix, and
padding `[[5]]` by one row/column keeps the old count and zero-fills the
new cells. -/
theorem cm_square_grow_by_zero_padding_witness :
    (∃ m', (⟨some [[0, 0], [1, 0]], none, none⟩ : CMState).cm = some m' ∧
      isSquare m' ∧ sizeS ⟨none, none, none⟩ ≤ m'.length) ∧
    getC (padSquare [[5]] 1) 0 0 = 5 ∧ getC (padSquare [[5]] 1) 1 1 = 0 := by
  refine ⟨?_, ?_, ?_⟩
  · exact cm_square_grow_by_zero_padding.1 ⟨none, none, none⟩ (.oneD [1]) (.oneD [0])
      ⟨some [[0, 0], [1, 0]], none, none⟩ (fun m h => by cases h) (by decide)
  · have hsq : isSquare [[5]] := by
      intro r hr
      rw [List.mem_singleton.1 hr]
      rfl
    exact ((cm_square_grow_by_zero_padding.2 [[5]] 1 hsq).2.2.1 0 0
      (by decide)).trans rfl
  · have hsq : isSquare [[5]] := by
      intro r hr
      rw [List.mem_singleton.1 hr]
      rfl
    exact (cm_square_grow_by_zero_padding.2 [[5]] 1 hsq).2.2.2 1 1
      (Or.inl (by decide))

lemma nat_sum_zero_all_zero : ∀ (l : List Nat), l.sum = 0 → ∀ x ∈ l, x = 0 := by
  intro l
  induction l with
  | nil => intro _ x hx; simp at hx
  | cons a t ih =>
    intro h x hx
    rw [List.sum_cons] at h
    rcases List.mem_cons.1 hx with rfl | hx2
    · omega
    · exact ih (by omega) x hx2

lemma sum_map_div (r : List Nat) (q : ℚ) :
    (r.map (fun (v : Nat) => (v : ℚ) / q)).sum =
      (r.map (fun (v : Nat) => (v : ℚ))).sum / q := by
  induction r with
  | nil => simp
  | cons a t ih => simp [ih, add_div]

lemma rowNormTrue_sum_one (r : List Nat) (h : r.sum ≠ 0) :
    (rowNormTrue r).sum = 1 := by
  have hq : ((r.map (fun (u : Nat) => (u : ℚ))).sum) ≠ 0 := by
    rw [show (r.map (fun (u : Nat) => (u : ℚ))) = r.map Nat.cast from rfl,
      ← Nat.cast_list_sum]
    exact_mod_cast h
  have heq : rowNormTrue r =
      r.map (fun (v : Nat) => (v : ℚ) / (r.map (fun (u : Nat) => (u : ℚ))).sum) := by
    unfold rowNormTrue
    apply List.map_congr_left
    intro v _
    rw [fdiv, if_pos hq]
    rfl
  rw [heq, sum_map_div, div_self hq]

lemma rowNormTrue_zero_row (r : List Nat) (h : r.sum = 0) :
    ∀ x ∈ rowNormTrue r, x = 0 := by
  intro x hx
  unfold rowNormTrue at hx
  rcases List.mem_map.1 hx with ⟨v, hv, rfl⟩
  have hv0 : v = 0 := nat_sum_zero_all_zero r h v hv
  subst hv0
  have hq : ((r.map (fun (u : Nat) => (u : ℚ))).sum) = 0 := by
    rw [show (r.map (fun (u : Nat) => (u : ℚ))) = r.map Nat.cast from rfl,
      ← Nat.cast_list_sum, h]
    rfl
  rw [hq]
  rw [show ((0 : Nat) : ℚ) = 0 from rfl]
  rw [fdiv]
  simp [nanToNum]

/-- C9: with normalization mode "true", `result()` returns the count
matrix with every row divided by its row sum and NaNs replaced by zero:
a row with at least one observation sums to 1 and an all-zero row stays
all zero. -/
theorem row_normalization_spec (m : Mat) (nc : Option Nat) :
    (result ⟨some m, nc, some "true"⟩).1 = .ok (.floatMat (normTrue m)) ∧
    ∀ r ∈ m, (r.sum ≠ 0 → (rowNormTrue r).sum = 1) ∧
      (r.sum = 0 → ∀ x ∈ rowNormTrue r, x = 0) := by
  constructor
  · have hnorm : normalizeCM m "true" = .ok (normTrue m) := by
      unfold normalizeCM
      rw [if_neg (by simp), if_pos rfl]
    simp only [result, hnorm]
  · intro r _
    exact ⟨rowNormTrue_sum_one r, rowNormTrue_zero_row r⟩

/-- C9 witness: the row `[1, 1]` normalizes to sum 1 and the zero row
`[0, 0]` stays zero. -/
theorem row_normalization_spec_witness :
    (rowNormTrue [1, 1]).sum = 1 ∧ ∀ x ∈ rowNormTrue [0, 0], x = 0 := by
  constructor
  · exact ((row_normalization_spec [[1, 1], [0, 0]] none).2 [1, 1]
      (by simp)).1 (by decide)
  · exact ((row_normalization_spec [[1, 1], [0, 0]] none).2 [0, 0]
      (by simp)).2 (by decide)

lemma truncate_higherD (nc : Option Nat) (ml : Int) (n d : Nat) :
    truncate nc ml (.higherD n d) = .higherD n d := rfl

lemma procSide_none_bound (ml : Int) (b : Bool) (t : Tensor) (ml' : Int)
    (idxs : List Nat) (hwf : t.WF)
    (h : procSide none ml b t = .ok (ml', idxs)) :
    ∀ i ∈ idxs, (i : Int) ≤ ml' := by
  cases t with
  | higherD n d => simp [procSide] at h
  | oneD xs => exact procSide_none_oneD_bound ml b xs ml' idxs h
  | twoD w rows =>
    have hb := procSide_twoD_bound none ml b w rows ml' idxs h hwf
    have hml : ml' = max ml ((w : Int) - 1) := by
      simp only [procSide] at h
      cases h1 : argmaxAll rows with
      | none => rw [h1] at h; simp at h
      | some idxs0 =>
        rw [h1] at h
        simp only [Except.ok.injEq, Prod.mk.injEq] at h
        exact h.1.symm
    intro i hi
    have h1 := hb i hi
    have h2 : (i : Int) ≤ (w : Int) - 1 := by omega
    rw [hml]
    exact le_trans h2 (le_max_right _ _)

lemma side_bound_some (k : Nat) (ml : Int) (b : Bool) (t : Tensor)
    (ml' : Int) (idxs : List Nat) (hwf : t.WF) (hk : 1 ≤ k)
    (h : procSide (some k) ml b (truncate (some k) ((k : Int) - 1) t) =
      .ok (ml', idxs)) :
    ∀ i ∈ idxs, i < k := by
  cases t with
  | higherD n d =>
    rw [truncate_higherD] at h
    simp [procSide] at h
  | oneD xs =>
    rw [truncate_oneD] at h
    exact procSide_some_oneD_bound k ml b xs ml' idxs h
  | twoD w rows =>
    have htr : truncate (some k) ((k : Int) - 1) (.twoD w rows) =
        .twoD (pyTakeLen ((k : Int) - 1) w) (rows.map (pyTake ((k : Int) - 1))) := rfl
    rw [htr] at h
    have hwf' : ∀ r ∈ rows.map (pyTake ((k : Int) - 1)),
        r.length = pyTakeLen ((k : Int) - 1) w := by
      intro r hr
      rcases List.mem_map.1 hr with ⟨r₀, hr₀, rfl⟩
      rw [pyTake_length, hwf r₀ hr₀]
    have hb := procSide_twoD_bound (some k) ml b _ _ ml' idxs h hwf'
    have h2 : (pyTakeLen ((k : Int) - 1) w : Int) ≤ (k : Int) - 1 :=
      pyTakeLen_le _ _ (by omega)
    intro i hi
    have h1 := hb i hi
    omega

/-- C10: for well-formed inputs and a square stored matrix, every cell
access performed by `update`'s increment loop is in bounds — the loop
never raises the index error, because after allocation or resizing the
matrix side exceeds every derived true and predicted class index. -/
theorem update_increments_in_bounds (s : CMState) (ty py : Tensor)
    (hs : s.WF) (hty : ty.WF) (hpy : py.WF) :
    (update s ty py).2 ≠ some .indexError := by
  intro hbad
  cases hu : update s ty py with
  | mk s' eo =>
    rw [hu] at hbad
    simp only at hbad
    subst hbad
    rcases update_err_inv s ty py s' .indexError hu with ⟨_, hne⟩ |
      ⟨ml1, pIdx, ml2, tIdx, hp, ht, hml2, hb, _⟩
    · exact hne rfl
    · have hgsq : isSquare (growCM s.cm ml2.toNat) :=
        growCM_square s.cm ml2.toNat hs
      have hglen : ml2.toNat < (growCM s.cm ml2.toNat).length :=
        growCM_length_gt s.cm ml2.toNat
      have hbound : ∀ pr ∈ tIdx.zip pIdx,
          pr.1 < (growCM s.cm ml2.toNat).length ∧
          pr.2 < (growCM s.cm ml2.toNat).length := by
        intro pr hpr
        obtain ⟨a, c⟩ := pr
        obtain ⟨hat, hcp⟩ := List.of_mem_zip hpr
        cases hnc : s.numClasses with
        | none =>
          have hml0 : ml0 s = -1 := by simp [ml0, hnc]
          rw [hnc, hml0] at hp ht
          rw [truncate_none] at hp ht
          have hbp : (c : Int) ≤ ml1 :=
            procSide_none_bound (-1) true py ml1 pIdx hpy hp c hcp
          have hbt : (a : Int) ≤ ml2 :=
            procSide_none_bound ml1 false ty ml2 tIdx hty ht a hat
          have hmono : ml1 ≤ ml2 :=
            procSide_ml_mono none ml1 false ty ml2 tIdx ht
          constructor <;> omega
        | some k =>
          have hml0 : ml0 s = (k : Int) - 1 := by simp [ml0, hnc]
          rw [hnc, hml0] at hp ht
          have hm1 : ml1 = (k : Int) - 1 :=
            procSide_some_ml k ((k : Int) - 1) true _ ml1 pIdx hp
          have hm2 : ml2 = ml1 :=
            procSide_some_ml k ml1 false _ ml2 tIdx ht
          have hk1 : 1 ≤ k := by omega
          rw [hm1] at hp
          rw [hm2, hm1] at ht
          have hbp : c < k := side_bound_some k ((k : Int) - 1) true py
            ((k : Int) - 1) pIdx hpy hk1 hp c hcp
          have hbt : a < k := side_bound_some k ((k : Int) - 1) false ty
            ((k : Int) - 1) tIdx hty hk1 ht a hat
          constructor <;> omega
      have hok := bump_ok (tIdx.zip pIdx) (growCM s.cm ml2.toNat) hgsq hbound
      rw [hb] at hok
      cases hok

/-- C10 witness: a concrete well-formed update raises no index error. -/
theorem update_increments_in_bounds_witness :
    (update ⟨none, none, none⟩ (.oneD [0]) (.oneD [0])).2 ≠ some .indexError :=
  update_increments_in_bounds ⟨none, none, none⟩ (.oneD [0]) (.oneD [0])
    (fun m h => by cases h) trivial trivial

end CM
